import Mathlib

/-!
Shallow embedding of the Price-Comparator repository's cross-platform product
matching and comparison engine.

The embedded code:
* `src/src/services/productService.ts` — `parseQuantity`, `hasMatchingQuantities`,
  `parseDeliveryTime`, and the predicate part of `applyFilters` (web app);
* `src/groease-mobile/src/services/productService.ts` — `sortProducts` with its helpers
  `cheapestPrice` and `fastestDelivery` (mobile app).

Modelling conventions:
* JS numbers are modelled as `ℚ` (the claims' arithmetic is ratio/tolerance
  comparison, far from any float rounding boundary).  JS division by zero
  (`x/0 = ±Infinity`, `0/0 = NaN`) is modelled where it is reachable: in the
  tolerance ratio check the comparison `max/min ≤ 2` is `false` whenever
  `min = 0` (ratio `Infinity` or `NaN` in JS), see `tolOK`.
* JS strings are processed as `List Char`; `toLowerCase`/`trim` are the ASCII
  operations (all platform data is ASCII).
* The regexes of the source are compiled by hand to scanning functions with
  JS leftmost-match semantics; greedy/backtracking choices that provably make no
  difference for these particular patterns are committed (a comment records the
  argument at each spot).
* JS truthiness on optional numbers/strings: `none` and `some 0` / `some ""`
  are falsy.
* JS objects used as maps (`platforms`, `original_names`) are association lists
  in key-insertion order; assignment to an existing key overwrites in place
  (`objInsert`).
* `Array.prototype.sort` with a consistent comparator is ECMA-stable; it is
  modelled by Mathlib's stable `List.insertionSort` on the relation
  "comparator result ≤ 0".  The one comparator that calls the ICU collator
  (`localeCompare` in the default sort branch) is a parameter `nameLe` of the
  model; theorems that need it assume only that it is total and transitive,
  which ECMA-402 guarantees for the real collator.
-/

namespace PriceComp

/-! ### Generic helpers -/

/-- Fold-based minimum of a list, mirroring `Math.min(...xs)` applied to a
non-empty spread (`none` for the empty list, where JS would give `Infinity`). -/
def listMin {α : Type} [LinearOrder α] : List α → Option α
  | [] => none
  | x :: xs =>
    match listMin xs with
    | none => some x
    | some m => some (min x m)

theorem listMin_isSome {α : Type} [LinearOrder α] (x : α) (xs : List α) :
    (listMin (x :: xs)).isSome := by
  cases h : listMin xs <;> simp [listMin, h]

theorem listMin_mem {α : Type} [LinearOrder α] :
    ∀ {l : List α} {m : α}, listMin l = some m → m ∈ l := by
  intro l
  induction l with
  | nil => intro m h; simp [listMin] at h
  | cons x xs ih =>
    intro m h
    cases hx : listMin xs with
    | none => simp [listMin, hx] at h; simp [h]
    | some m' =>
      simp [listMin, hx] at h
      rcases min_choice x m' with hc | hc
      · exact List.mem_cons.mpr (Or.inl (by rw [← h, hc]))
      · exact List.mem_cons.mpr (Or.inr (ih (hx.trans (by rw [← h, hc]))))

theorem listMin_le {α : Type} [LinearOrder α] :
    ∀ {l : List α} {m a : α}, listMin l = some m → a ∈ l → m ≤ a := by
  intro l
  induction l with
  | nil => intro m a _ ha; simp at ha
  | cons x xs ih =>
    intro m a h ha
    cases hx : listMin xs with
    | none =>
      have hxs : xs = [] := by
        cases xs with
        | nil => rfl
        | cons y ys => cases hy : listMin ys <;> simp [listMin, hy] at hx
      subst hxs
      simp [listMin] at h
      simp at ha
      simp [h, ha]
    | some m' =>
      simp [listMin, hx] at h
      rcases List.mem_cons.mp ha with rfl | hmem
      · rw [← h]; exact min_le_left _ _
      · calc m ≤ m' := by rw [← h]; exact min_le_right _ _
             _ ≤ a := ih hx hmem

/-- First-match lookup in an association list (JS property read). -/
def lookupA {α : Type} : List (String × α) → String → Option α
  | [], _ => none
  | (k, v) :: t, k' => if k = k' then some v else lookupA t k'

/-- JS object assignment `o[k] = v`: overwrite in place if the key exists,
append otherwise (key order is first-insertion order). -/
def objInsert {α : Type} : List (String × α) → String → α → List (String × α)
  | [], k, v => [(k, v)]
  | (k', v') :: t, k, v =>
    if k' = k then (k, v) :: t else (k', v') :: objInsert t k v

theorem lookupA_objInsert {α : Type} (l : List (String × α)) (k : String) (v : α)
    (k' : String) :
    lookupA (objInsert l k v) k' = if k = k' then some v else lookupA l k' := by
  induction l with
  | nil => by_cases h : k = k' <;> simp [objInsert, lookupA, h]
  | cons p t ih =>
    obtain ⟨pk, pv⟩ := p
    by_cases hpk : pk = k
    · subst hpk
      by_cases h : pk = k' <;> simp [objInsert, lookupA, h]
    · by_cases h : pk = k'
      · subst h
        have : ¬ k = pk := fun hh => hpk hh.symm
        simp [objInsert, lookupA, hpk, this]
      · simp [objInsert, lookupA, hpk, h, ih]

/-- JS truthiness of an optional number (`undefined` and `0` are falsy). -/
def numTruthy : Option ℚ → Bool
  | none => false
  | some x => x ≠ 0

/-- JS truthiness of an optional natural (`undefined` and `0` are falsy). -/
def natTruthy : Option ℕ → Bool
  | none => false
  | some n => n ≠ 0

/-- JS truthiness of an optional string (`undefined` and `""` are falsy). -/
def strTruthy : Option String → Bool
  | none => false
  | some s => s ≠ ""

/-! ### Strings and character scanning -/

/-- The whitespace class of JS `\s` / `String.prototype.trim` (ASCII part). -/
def isSpaceCh (c : Char) : Bool :=
  c = ' ' || c = '\t' || c = '\n' || c = '\r' || c = '\x0b' || c = '\x0c'

/-- `String.prototype.trim` on the character list. -/
def trimChars (l : List Char) : List Char :=
  ((l.dropWhile isSpaceCh).reverse.dropWhile isSpaceCh).reverse

/-- `String.prototype.toLowerCase` (ASCII). -/
def lowerChars (l : List Char) : List Char :=
  l.map Char.toLower

/-- Decimal digit-run value, as computed by `parseInt` on a digit string. -/
def digitsToNat (l : List Char) : ℕ :=
  l.foldl (fun a c => 10 * a + (c.toNat - 48)) 0

/-- `p` is a prefix of `l` (used for regex literal and alternation matching). -/
def hasPfx (p l : List Char) : Bool :=
  p.isPrefixOf l

/-! ### `parseQuantity` (web `productService.ts`, lines 199–221)

The source regex is
`/(\d+(?:\.\d+)?)\s*(kg|g|gm|gram|kilograms?|grams?|pack|pcs?|pieces?)/`
applied to the trimmed, lower-cased quantity string. -/

/-- One parsed quantity: `{ value: number, unit: string }` of the source. -/
structure Quantity where
  value : ℚ
  unit : String
deriving DecidableEq, Repr

/-- The alternatives of `kg|g|gm|gram|kilograms?|grams?|pack|pcs?|pieces?` in
the order the regex engine tries them; each optional `s?` expands to the
greedy pair "with `s` first".  Alternatives subsumed by an earlier one (`gm`,
`gram`, `grams` all start with `g`) are kept for fidelity even though they can
never fire. -/
def unitTokens : List String :=
  ["kg", "g", "gm", "gram", "kilograms", "kilogram", "grams", "gram",
   "pack", "pcs", "pc", "pieces", "piece"]

/-- The regex alternation: the first alternative that matches at the current
position wins and is the captured unit token. -/
def unitAlt (l : List Char) : Option String :=
  unitTokens.find? fun t => hasPfx t.data l

/-- Attempt the quantity regex anchored at the head of `l`:
`\d+` (greedy — shortening it leaves a digit where only `.`, space or a letter
could continue, so the maximal run is committed), the optional `(?:\.\d+)?`
(if present it is taken greedily; when dropping it the next character is `.`,
which no unit alternative starts with, so the backtrack branch always fails),
`\s*` (greedy — no unit alternative starts with whitespace), then the unit
alternation.  The captured number is `parseFloat` of the digit groups.
`fracSplit` handles the optional fraction given the remainder after the integer
digits and their value; `matchQtyAt` is the anchored attempt itself. -/
def fracSplit (r1 : List Char) (intv : ℕ) : ℚ × List Char :=
  match r1 with
  | '.' :: r2 =>
    if (r2.takeWhile Char.isDigit).isEmpty then ((intv : ℚ), '.' :: r2)
    else ((intv : ℚ) +
            (digitsToNat (r2.takeWhile Char.isDigit) : ℚ) /
              (10 : ℚ) ^ (r2.takeWhile Char.isDigit).length,
          r2.dropWhile Char.isDigit)
  | _ => ((intv : ℚ), r1)

def matchQtyAt (l : List Char) : Option (ℚ × String) :=
  let ds := l.takeWhile Char.isDigit
  if ds.isEmpty then none
  else
    let vr := fracSplit (l.dropWhile Char.isDigit) (digitsToNat ds)
    (unitAlt (vr.2.dropWhile isSpaceCh)).map fun u => (vr.1, u)

/-- Leftmost match of the quantity regex: try every start position from the
left; the first successful anchored match wins. -/
def findQtyMatch : List Char → Option (ℚ × String)
  | [] => none
  | c :: r =>
    match matchQtyAt (c :: r) with
    | some x => some x
    | none => findQtyMatch r

/-- The unit-synonym normalization table of `parseQuantity`. -/
def normalizeUnit (u : String) : String :=
  if u = "gram" ∨ u = "grams" ∨ u = "gm" then "g"
  else if u = "kilogram" ∨ u = "kilograms" then "kg"
  else if u = "pc" ∨ u = "pcs" ∨ u = "pieces" then "pack"
  else u

/-- `parseQuantity` of the web `ProductService`: trim and lower-case the raw
string, run the regex, normalize the captured unit; `null` when the regex does
not match. -/
def parseQuantity (s : String) : Option Quantity :=
  match findQtyMatch (lowerChars (trimChars s.data)) with
  | some (v, u) => some ⟨v, normalizeUnit u⟩
  | none => none

/-! ### Web data model (`src/src/types/product.ts`) — the fields the embedded
functions read. -/

/-- A per-platform product listing of the web app (fields not read by the
embedded logic are omitted). -/
structure Product where
  name : String
  platform : String
  price : ℚ
  rating : ℚ
  deliveryTime : Option String := none
  deliveryFee : Option ℚ := none
  quantity : Option String := none
deriving DecidableEq, Repr

/-- The web `ComparisonFilters`. -/
structure WebFilters where
  platforms : List String
  minPrice : Option ℚ := none
  maxPrice : Option ℚ := none
  minRating : Option ℚ := none
  sortBy : String
  maxDeliveryTime : Option ℕ := none
deriving DecidableEq, Repr

/-! ### `hasMatchingQuantities` (web `productService.ts`, lines 138–193) -/

/-- `p.quantity ? parseQuantity(p.quantity) : null` of the source. -/
def parsedOf (p : Product) : Option Quantity :=
  if strTruthy p.quantity then parseQuantity (p.quantity.getD "") else none

/-- `s.trim().toLowerCase()` as one `String → String` function. -/
def normStr (s : String) : String :=
  String.mk (lowerChars (trimChars s.data))

/-- The kg conversion inside `hasMatchingQuantities`: `g|gm|gram → value/1000`,
`kg|kilogram → value`, anything else (packs, unknown units) `null`. -/
def toKg (q : Quantity) : Option ℚ :=
  if q.unit = "g" ∨ q.unit = "gm" ∨ q.unit = "gram" then some (q.value / 1000)
  else if q.unit = "kg" ∨ q.unit = "kilogram" then some q.value
  else none

/-- The per-member tolerance test against the reference value `firstQty`:
`|qty - firstQty| < 0.01` or `max/min ≤ TOLERANCE_RATIO (= 2)`.
JS division semantics at `min = 0` (only nonnegative values reach this point):
`max/0` is `Infinity` (or `NaN` for `0/0`), so `≤ 2` is `false`. -/
def tolOK (qty firstQty : ℚ) : Bool :=
  if |qty - firstQty| < 1 / 100 then true
  else if min qty firstQty = 0 then false
  else max qty firstQty / min qty firstQty ≤ 2

/-- `hasMatchingQuantities` of the web `ProductService`, translated clause by
clause from the source. -/
def hasMatchingQuantities (products : List Product) : Bool :=
  if products.length ≤ 1 then true
  else
    let parsedQuantities := products.filterMap parsedOf
    if parsedQuantities.length = 0 then true
    else if parsedQuantities.length < products.length then false
    else
      let quantitiesInKg := parsedQuantities.map toKg
      if quantitiesInKg.any (·.isNone) then
        let quantityStrings :=
          (products.filterMap fun p => p.quantity.map normStr).filter (· ≠ "")
        if quantityStrings.length = 0 then true
        else quantityStrings.all (· = quantityStrings.headD "")
      else
        let firstQty := (quantitiesInKg.headD none).getD 0
        quantitiesInKg.all fun q =>
          match q with
          | none => false
          | some v => tolOK v firstQty

/-! ### `parseDeliveryTime` (web `productService.ts`, lines 93–115)

Three regexes tried in order on the lower-cased string:
`/(\d+)\s*hour/`, `/(\d+)-(\d+)\s*min/` (upper bound returned), `/(\d+)\s*min/`;
default 999.  In each pattern every greedy token is committed: shortening a
`\d+` leaves a digit where a literal `-`, `h` or `m` is required, and no
literal starts with whitespace, so backtracking can never succeed. -/

/-- Anchored match of `(\d+)\s*hour`. -/
def matchHourAt (l : List Char) : Option ℕ :=
  let ds := l.takeWhile Char.isDigit
  let r := (l.dropWhile Char.isDigit).dropWhile isSpaceCh
  if ds.isEmpty then none
  else if hasPfx "hour".data r then some (digitsToNat ds) else none

/-- Leftmost match of `(\d+)\s*hour`. -/
def findHour : List Char → Option ℕ
  | [] => none
  | c :: r =>
    match matchHourAt (c :: r) with
    | some x => some x
    | none => findHour r

/-- Anchored match of `(\d+)-(\d+)\s*min`, returning both captures. -/
def matchRangeAt (l : List Char) : Option (ℕ × ℕ) :=
  let ds := l.takeWhile Char.isDigit
  let r1 := l.dropWhile Char.isDigit
  if ds.isEmpty then none
  else
    match r1 with
    | '-' :: r2 =>
      let es := r2.takeWhile Char.isDigit
      let r3 := (r2.dropWhile Char.isDigit).dropWhile isSpaceCh
      if es.isEmpty then none
      else if hasPfx "min".data r3 then some (digitsToNat ds, digitsToNat es)
      else none
    | _ => none

/-- Leftmost match of `(\d+)-(\d+)\s*min`. -/
def findRange : List Char → Option (ℕ × ℕ)
  | [] => none
  | c :: r =>
    match matchRangeAt (c :: r) with
    | some x => some x
    | none => findRange r

/-- Anchored match of `(\d+)\s*min`. -/
def matchMinAt (l : List Char) : Option ℕ :=
  let ds := l.takeWhile Char.isDigit
  let r := (l.dropWhile Char.isDigit).dropWhile isSpaceCh
  if ds.isEmpty then none
  else if hasPfx "min".data r then some (digitsToNat ds) else none

/-- Leftmost match of `(\d+)\s*min`. -/
def findMin : List Char → Option ℕ
  | [] => none
  | c :: r =>
    match matchMinAt (c :: r) with
    | some x => some x
    | none => findMin r

/-- `parseDeliveryTime` of the web `ProductService`: hours × 60, else the upper
bound of a minute range, else a single minute value, else 999. -/
def parseDeliveryTime (deliveryTime : String) : ℕ :=
  let timeStr := lowerChars deliveryTime.data
  match findHour timeStr with
  | some h => h * 60
  | none =>
    match findRange timeStr with
    | some r => r.2
    | none =>
      match findMin timeStr with
      | some m => m
      | none => 999

/-- The predicate of `applyFilters` (web `productService.ts`, lines 51–81):
`true` iff the product survives the platform / price / rating / delivery-time
clauses.  Optional filter values are tested with JS truthiness. -/
def keepProduct (filters : WebFilters) (p : Product) : Bool :=
  if filters.platforms.length > 0 && !(filters.platforms.contains p.platform) then false
  else if numTruthy filters.minPrice && decide (p.price < filters.minPrice.getD 0) then false
  else if numTruthy filters.maxPrice && decide (p.price > filters.maxPrice.getD 0) then false
  else if numTruthy filters.minRating && decide (p.rating < filters.minRating.getD 0) then false
  else if natTruthy filters.maxDeliveryTime && strTruthy p.deliveryTime &&
      decide (parseDeliveryTime (p.deliveryTime.getD "") > filters.maxDeliveryTime.getD 0) then
    false
  else true

/-! ### Mobile data model and `sortProducts`
(`src/groease-mobile/src/services/productService.ts`, lines 42–108) -/

/-- One platform's entry in a `MatchedProduct.platforms` record:
`{ price, quantity, deliveryTime, link }`.  `deliveryTime` is optional at the
use site (`d.deliveryTime?.match`), hence `Option`. -/
structure Listing where
  price : ℚ
  quantity : String := ""
  deliveryTime : Option String := none
  link : String := ""
deriving DecidableEq, Repr

/-- A backend `MatchedProduct`.  The two JS records are association lists in
key-insertion order; an absent `original_names` behaves exactly like `{}`
under the source's optional chaining, so it is modelled as `[]`. -/
structure MProduct where
  name : String
  image : String := ""
  original_names : List (String × String) := []
  platforms : List (String × Listing)
deriving DecidableEq, Repr

/-- The slice of `ComparisonFilters` read by the mobile `sortProducts`
(`Pick<ComparisonFilters, 'sortBy' | 'maxPrice' | 'platforms'>`). -/
structure MFilters where
  sortBy : String
  maxPrice : Option ℚ := none
  platforms : List String
deriving DecidableEq, Repr

/-- Build a JS object by iterating over `fps` and assigning `o[plat] = f plat`
whenever `f plat` is present.  Common shape of the two step-1 loops. -/
def buildObj {α : Type} (f : String → Option α) (fps : List String) :
    List (String × α) :=
  fps.foldl
    (fun acc plat =>
      match f plat with
      | some v => objInsert acc plat v
      | none => acc)
    []

/-- Step 1 body, platforms record: for each `plat` of `filters.platforms` in
order, `if (p.platforms[plat]) filteredPlatforms[plat] = p.platforms[plat]`. -/
def narrowPlat (fps : List String) (src : List (String × Listing)) :
    List (String × Listing) :=
  buildObj (lookupA src) fps

/-- The `original_names` value the step-1 loop copies for `plat`: present iff
the platform listing exists and `p.original_names?.[plat]` is truthy
(an empty-string name is falsy and is skipped). -/
def namesEntry (p : MProduct) (plat : String) : Option String :=
  match lookupA p.platforms plat with
  | some _ =>
    match lookupA p.original_names plat with
    | some s => if s ≠ "" then some s else none
    | none => none
  | none => none

/-- Step 1 body, names record:
`if (p.original_names?.[plat]) filteredNames[plat] = p.original_names[plat]`
inside the platform-present branch. -/
def narrowNames (fps : List String) (p : MProduct) : List (String × String) :=
  buildObj (namesEntry p) fps

/-- The record produced by the step-1 `map`:
`{ ...p, platforms: filteredPlatforms, original_names: filteredNames }`. -/
def narrowRec (fps : List String) (p : MProduct) : MProduct :=
  { p with platforms := narrowPlat fps p.platforms,
           original_names := narrowNames fps p }

/-- Step 1 of `sortProducts`: narrow every record to the requested platforms
and drop records left with zero listings; skipped when `filters` is absent or
`filters.platforms` is empty. -/
def step1 (filters : Option MFilters) (l : List MProduct) : List MProduct :=
  match filters with
  | some f =>
    if f.platforms.length > 0 then
      (l.map (narrowRec f.platforms)).filter fun p => p.platforms.length > 0
    else l
  | none => l

/-- `Object.values(p.platforms).map(d => d.price).filter(Boolean)`. -/
def pricesOf (p : MProduct) : List ℚ :=
  (p.platforms.map fun kv => kv.2.price).filter fun x => x ≠ 0

/-- The step-2 predicate:
`prices.length > 0 && Math.min(...prices) <= filters.maxPrice`. -/
def priceOk (f : MFilters) (p : MProduct) : Bool :=
  match listMin (pricesOf p) with
  | some m => decide (m ≤ f.maxPrice.getD 0)
  | none => false

/-- Step 2 of `sortProducts`: when `filters.maxPrice` is truthy, keep a record
iff it has a nonzero price and the least nonzero price is `≤ maxPrice`. -/
def step2 (filters : Option MFilters) (l : List MProduct) : List MProduct :=
  match filters with
  | some f => if numTruthy f.maxPrice then l.filter (priceOk f) else l
  | none => l

/-- The `cheapestPrice` sort key: least nonzero platform price, `Infinity`
(here `⊤`) when there is none. -/
def cheapestPrice (p : MProduct) : WithTop ℚ :=
  match listMin (pricesOf p) with
  | some m => (m : WithTop ℚ)
  | none => ⊤

/-- Per-listing minutes inside `fastestDelivery`: the first `(\d+)` of the
delivery string, 999 when the string is absent or has no digits. -/
def firstNum : List Char → Option ℕ
  | [] => none
  | c :: r =>
    if c.isDigit then some (digitsToNat ((c :: r).takeWhile Char.isDigit))
    else firstNum r

/-- `d.deliveryTime?.match(/(\d+)/)` with default 999. -/
def listingMinutes (d : Option String) : ℕ :=
  match d with
  | some s =>
    match firstNum s.data with
    | some n => n
    | none => 999
  | none => 999

/-- The `fastestDelivery` sort key: least per-listing minutes, 999 when the
record has no platforms. -/
def fastestDelivery (p : MProduct) : ℕ :=
  match listMin (p.platforms.map fun kv => listingMinutes kv.2.deliveryTime) with
  | some m => m
  | none => 999

/-- The default-branch comparator as a "comes weakly before" relation:
`cb - ca` when the platform counts differ, otherwise
`a.name.localeCompare(b.name, ...)`; `nameLe` models "that collation is ≤ 0". -/
def leDefault (nameLe : String → String → Bool) (a b : MProduct) : Bool :=
  if a.platforms.length = b.platforms.length then nameLe a.name b.name
  else decide (b.platforms.length < a.platforms.length)

/-- `filters?.sortBy ?? 'price-low'`. -/
def sortKeyOf (filters : Option MFilters) : String :=
  match filters with
  | some f => f.sortBy
  | none => "price-low"

/-- Step 3 of `sortProducts`: the ECMA-stable in-place sort, keyed by
`filters?.sortBy ?? 'price-low'`.  Each JS comparator `cmp` is replaced by the
relation `cmp a b ≤ 0` (two `Infinity` keys subtract to `NaN`, which
`SortCompare` turns into `+0`, i.e. "equal" — consistent with `⊤ ≤ ⊤`). -/
def step3 (nameLe : String → String → Bool) (filters : Option MFilters)
    (l : List MProduct) : List MProduct :=
  if sortKeyOf filters = "price-low" then
    l.insertionSort fun a b => cheapestPrice a ≤ cheapestPrice b
  else if sortKeyOf filters = "price-high" then
    l.insertionSort fun a b => cheapestPrice b ≤ cheapestPrice a
  else if sortKeyOf filters = "delivery-time" then
    l.insertionSort fun a b => fastestDelivery a ≤ fastestDelivery b
  else
    l.insertionSort fun a b => leDefault nameLe a b = true

/-- `sortProducts` of the mobile `ProductService`: platform narrowing, price
ceiling, then sort. -/
def sortProducts (nameLe : String → String → Bool) (products : List MProduct)
    (filters : Option MFilters) : List MProduct :=
  step3 nameLe filters (step2 filters (step1 filters products))

/-! ### Lemmas about the narrowing loops -/

theorem lookupA_buildObj_go {α : Type} (f : String → Option α) :
    ∀ (fps : List String) (acc : List (String × α)) (k : String),
      lookupA
        (fps.foldl
          (fun acc plat =>
            match f plat with
            | some v => objInsert acc plat v
            | none => acc)
          acc)
        k =
      if k ∈ fps ∧ (f k).isSome then f k else lookupA acc k := by
  intro fps
  induction fps with
  | nil => intro acc k; simp
  | cons plat rest ih =>
    intro acc k
    rw [List.foldl_cons, ih]
    by_cases hk : k ∈ rest ∧ (f k).isSome
    · simp only [if_pos hk]
      have : k ∈ plat :: rest ∧ (f k).isSome := ⟨List.mem_cons_of_mem _ hk.1, hk.2⟩
      rw [if_pos this]
    · rw [if_neg hk]
      by_cases hpk : plat = k
      · subst hpk
        cases hf : f plat with
        | none =>
          simp only [hf]
          rw [if_neg (by simp)]
        | some v =>
          simp only [hf, lookupA_objInsert, if_pos rfl]
          simp
      · have hcons : (k ∈ plat :: rest ∧ (f k).isSome) ↔ (k ∈ rest ∧ (f k).isSome) := by
          constructor
          · rintro ⟨hm, hs⟩
            rcases List.mem_cons.mp hm with rfl | hm'
            · exact absurd rfl hpk
            · exact ⟨hm', hs⟩
          · rintro ⟨hm, hs⟩
            exact ⟨List.mem_cons_of_mem _ hm, hs⟩
        simp only [hcons, if_neg hk]
        cases hf : f plat with
        | none => rfl
        | some v => simp only [lookupA_objInsert, if_neg hpk]

/-- Reading any key of a built object: the entry function on the iterated
keys, absent elsewhere. -/
theorem lookupA_buildObj {α : Type} (f : String → Option α) (fps : List String)
    (k : String) :
    lookupA (buildObj f fps) k = if k ∈ fps then f k else none := by
  rw [buildObj, lookupA_buildObj_go]
  by_cases hm : k ∈ fps
  · cases hf : f k with
    | none => simp [hm, hf, lookupA]
    | some v => simp [hm, hf]
  · simp [hm, lookupA]

theorem buildObj_congr {α : Type} (f g : String → Option α) :
    ∀ (fps : List String), (∀ plat ∈ fps, f plat = g plat) →
      buildObj f fps = buildObj g fps := by
  have go : ∀ (fps : List String) (acc : List (String × α)),
      (∀ plat ∈ fps, f plat = g plat) →
      (fps.foldl
        (fun acc plat =>
          match f plat with
          | some v => objInsert acc plat v
          | none => acc)
        acc) =
      (fps.foldl
        (fun acc plat =>
          match g plat with
          | some v => objInsert acc plat v
          | none => acc)
        acc) := by
    intro fps
    induction fps with
    | nil => intro acc _; rfl
    | cons plat rest ih =>
      intro acc h
      rw [List.foldl_cons, List.foldl_cons, h plat (List.mem_cons_self _ _)]
      exact ih _ fun q hq => h q (List.mem_cons_of_mem _ hq)
  intro fps h
  exact go fps [] h

theorem lookupA_narrowPlat (fps : List String) (src : List (String × Listing))
    (k : String) :
    lookupA (narrowPlat fps src) k = if k ∈ fps then lookupA src k else none :=
  lookupA_buildObj _ _ _

theorem lookupA_narrowNames (fps : List String) (p : MProduct) (k : String) :
    lookupA (narrowNames fps p) k = if k ∈ fps then namesEntry p k else none :=
  lookupA_buildObj _ _ _

theorem narrowPlat_idem (fps : List String) (src : List (String × Listing)) :
    narrowPlat fps (narrowPlat fps src) = narrowPlat fps src :=
  buildObj_congr _ _ fps fun plat hp => by
    rw [lookupA_narrowPlat, if_pos hp]

theorem namesEntry_narrowRec (fps : List String) (p : MProduct) (plat : String)
    (hp : plat ∈ fps) : namesEntry (narrowRec fps p) plat = namesEntry p plat := by
  unfold namesEntry narrowRec
  simp only [lookupA_narrowPlat, lookupA_narrowNames, if_pos hp]
  cases hpl : lookupA p.platforms plat with
  | none => simp [namesEntry, hpl]
  | some d =>
    cases hnm : lookupA p.original_names plat with
    | none => simp [namesEntry, hpl, hnm]
    | some s =>
      by_cases hs : s = ""
      · subst hs; simp [namesEntry, hpl, hnm]
      · simp [namesEntry, hpl, hnm, hs]

/-! ### Lemmas about the three pipeline steps -/

theorem insertionSort_idem {α : Type} (r : α → α → Prop) [DecidableRel r]
    [IsTotal α r] [IsTrans α r] (l : List α) :
    (l.insertionSort r).insertionSort r = l.insertionSort r :=
  (List.sorted_insertionSort r l).insertionSort_eq

theorem mem_step3 (nameLe : String → String → Bool) (filters : Option MFilters)
    (l : List MProduct) (x : MProduct) : x ∈ step3 nameLe filters l ↔ x ∈ l := by
  unfold step3
  split_ifs <;> exact List.mem_insertionSort _

theorem mem_of_step2 {filters : Option MFilters} {l : List MProduct} {x : MProduct}
    (hx : x ∈ step2 filters l) : x ∈ l := by
  cases filters with
  | none => exact hx
  | some f =>
    simp only [step2] at hx
    by_cases ht : numTruthy f.maxPrice
    · rw [if_pos ht] at hx
      exact List.mem_of_mem_filter hx
    · rwa [if_neg ht] at hx

theorem priceOk_of_mem_step2 {f : MFilters} {l : List MProduct} {x : MProduct}
    (ht : numTruthy f.maxPrice = true) (hx : x ∈ step2 (some f) l) :
    priceOk f x = true := by
  simp only [step2] at hx
  rw [if_pos ht] at hx
  exact List.of_mem_filter hx

theorem mem_step1_active {f : MFilters} {l : List MProduct} {x : MProduct}
    (hp : f.platforms.length > 0) (hx : x ∈ step1 (some f) l) :
    (∃ p ∈ l, x = narrowRec f.platforms p) ∧ 0 < x.platforms.length := by
  simp only [step1] at hx
  rw [if_pos hp] at hx
  have h1 := List.mem_of_mem_filter hx
  have h2 := List.of_mem_filter hx
  obtain ⟨p, hpl, hpx⟩ := List.mem_map.mp h1
  exact ⟨⟨p, hpl, hpx.symm⟩, of_decide_eq_true h2⟩

theorem step1_eq_self (f : MFilters) (l : List MProduct)
    (h : ∀ x ∈ l, narrowRec f.platforms x = x ∧ 0 < x.platforms.length) :
    step1 (some f) l = l := by
  simp only [step1]
  by_cases hp : f.platforms.length > 0
  · rw [if_pos hp]
    have hmap : l.map (narrowRec f.platforms) = l := by
      have := List.map_congr_left (f := narrowRec f.platforms) (g := id)
        (fun a ha => (h a ha).1)
      rw [this, List.map_id]
    rw [hmap]
    exact List.filter_eq_self.mpr fun a ha => decide_eq_true (h a ha).2
  · rw [if_neg hp]

theorem step2_eq_self (filters : Option MFilters) (l : List MProduct)
    (h : ∀ f : MFilters, filters = some f → numTruthy f.maxPrice = true →
      ∀ x ∈ l, priceOk f x = true) :
    step2 filters l = l := by
  cases filters with
  | none => rfl
  | some f =>
    simp only [step2]
    by_cases ht : numTruthy f.maxPrice
    · rw [if_pos ht]
      exact List.filter_eq_self.mpr (h f rfl ht)
    · rw [if_neg ht]

/-- Totality of the default-branch relation, given totality of the collator. -/
theorem leDefault_total (nameLe : String → String → Bool)
    (htot : ∀ a b, nameLe a b = true ∨ nameLe b a = true) (a b : MProduct) :
    leDefault nameLe a b = true ∨ leDefault nameLe b a = true := by
  unfold leDefault
  by_cases hc : a.platforms.length = b.platforms.length
  · rw [if_pos hc, if_pos hc.symm]
    exact htot a.name b.name
  · rw [if_neg hc, if_neg (fun hh => hc hh.symm)]
    rcases Nat.lt_or_ge a.platforms.length b.platforms.length with hlt | hge
    · right; exact decide_eq_true hlt
    · left; exact decide_eq_true (lt_of_le_of_ne hge (fun hh => hc hh.symm))

/-- Transitivity of the default-branch relation, given transitivity of the
collator. -/
theorem leDefault_trans (nameLe : String → String → Bool)
    (htrans : ∀ a b c, nameLe a b = true → nameLe b c = true → nameLe a c = true)
    (a b c : MProduct) (hab : leDefault nameLe a b = true)
    (hbc : leDefault nameLe b c = true) : leDefault nameLe a c = true := by
  unfold leDefault at *
  by_cases h1 : a.platforms.length = b.platforms.length <;>
    by_cases h2 : b.platforms.length = c.platforms.length
  · rw [if_pos h1] at hab
    rw [if_pos h2] at hbc
    rw [if_pos (h1.trans h2)]
    exact htrans _ _ _ hab hbc
  · rw [if_neg h2] at hbc
    have hcb : c.platforms.length < b.platforms.length := of_decide_eq_true hbc
    have : ¬ a.platforms.length = c.platforms.length := by omega
    rw [if_neg this]
    exact decide_eq_true (by omega)
  · rw [if_neg h1] at hab
    have hba : b.platforms.length < a.platforms.length := of_decide_eq_true hab
    have : ¬ a.platforms.length = c.platforms.length := by omega
    rw [if_neg this]
    exact decide_eq_true (by omega)
  · rw [if_neg h1] at hab
    rw [if_neg h2] at hbc
    have hba : b.platforms.length < a.platforms.length := of_decide_eq_true hab
    have hcb : c.platforms.length < b.platforms.length := of_decide_eq_true hbc
    have : ¬ a.platforms.length = c.platforms.length := by omega
    rw [if_neg this]
    exact decide_eq_true (by omega)

theorem step3_idem (nameLe : String → String → Bool)
    (htot : ∀ a b, nameLe a b = true ∨ nameLe b a = true)
    (htrans : ∀ a b c, nameLe a b = true → nameLe b c = true → nameLe a c = true)
    (filters : Option MFilters) (l : List MProduct) :
    step3 nameLe filters (step3 nameLe filters l) = step3 nameLe filters l := by
  unfold step3
  split_ifs
  · haveI : IsTotal MProduct (fun a b => cheapestPrice a ≤ cheapestPrice b) :=
      ⟨fun a b => le_total _ _⟩
    haveI : IsTrans MProduct (fun a b => cheapestPrice a ≤ cheapestPrice b) :=
      ⟨fun _ _ _ h h' => le_trans h h'⟩
    exact insertionSort_idem _ l
  · haveI : IsTotal MProduct (fun a b => cheapestPrice b ≤ cheapestPrice a) :=
      ⟨fun a b => le_total _ _⟩
    haveI : IsTrans MProduct (fun a b => cheapestPrice b ≤ cheapestPrice a) :=
      ⟨fun _ _ _ h h' => le_trans h' h⟩
    exact insertionSort_idem _ l
  · haveI : IsTotal MProduct (fun a b => fastestDelivery a ≤ fastestDelivery b) :=
      ⟨fun a b => le_total _ _⟩
    haveI : IsTrans MProduct (fun a b => fastestDelivery a ≤ fastestDelivery b) :=
      ⟨fun _ _ _ h h' => le_trans h h'⟩
    exact insertionSort_idem _ l
  · haveI : IsTotal MProduct (fun a b => leDefault nameLe a b = true) :=
      ⟨leDefault_total nameLe htot⟩
    haveI : IsTrans MProduct (fun a b => leDefault nameLe a b = true) :=
      ⟨leDefault_trans nameLe htrans⟩
    exact insertionSort_idem _ l

theorem narrowRec_idem (fps : List String) (p : MProduct) :
    narrowRec fps (narrowRec fps p) = narrowRec fps p := by
  have h2 : narrowNames fps (narrowRec fps p) = narrowNames fps p :=
    buildObj_congr _ _ fps fun plat hp => namesEntry_narrowRec fps p plat hp
  show ({ narrowRec fps p with
            platforms := narrowPlat fps (narrowRec fps p).platforms,
            original_names := narrowNames fps (narrowRec fps p) } : MProduct) =
       narrowRec fps p
  rw [h2]
  show ({ narrowRec fps p with
            platforms := narrowPlat fps (narrowPlat fps p.platforms),
            original_names := narrowNames fps p } : MProduct) = narrowRec fps p
  rw [narrowPlat_idem]
  rfl

/-! ### List bookkeeping lemmas -/

theorem filterMap_of_map_some {α β : Type} (f : α → Option β) :
    ∀ (l : List α) (qs : List β), l.map f = qs.map some → l.filterMap f = qs := by
  intro l
  induction l with
  | nil =>
    intro qs h
    cases qs with
    | nil => rfl
    | cons q qs' => simp at h
  | cons a l' ih =>
    intro qs h
    cases qs with
    | nil => simp at h
    | cons q qs' =>
      simp only [List.map_cons, List.cons.injEq] at h
      rw [List.filterMap_cons, h.1, ih qs' h.2]

theorem length_filterMap_lt_of_none {α β : Type} (f : α → Option β) :
    ∀ (l : List α) (a : α), a ∈ l → f a = none →
      (l.filterMap f).length < l.length := by
  intro l
  induction l with
  | nil => intro a ha; simp at ha
  | cons x l' ih =>
    intro a ha hfa
    rcases List.mem_cons.mp ha with rfl | hmem
    · rw [List.filterMap_cons, hfa]
      have := List.length_filterMap_le f l'
      simp only [List.length_cons]
      omega
    · rw [List.filterMap_cons]
      cases hfx : f x with
      | none =>
        have := ih a hmem hfa
        simp only [List.length_cons]
        omega
      | some b =>
        have := ih a hmem hfa
        simp only [List.length_cons, List.length_cons]
        omega

/-! ### Concrete fixtures used by witnesses and counterexamples -/

/-- Web product with the given quantity string (other fields arbitrary). -/
def webP (q : Option String) : Product :=
  { name := "Milk", platform := "zepto", price := 60, rating := 4, quantity := q }

def pOneKg : Product := webP (some "1 kg")
def p900g : Product := webP (some "900 g")
def p200g : Product := webP (some "200 g")
def pNoQty : Product := webP none
def pPackLower : Product := webP (some "1 pack")
def pPackUpper : Product := webP (some "1 PACK")

/-- A collator model that makes every comparison "≤": total and transitive. -/
def nameLeT : String → String → Bool := fun _ _ => true

def lsP50 : Listing := { price := 50 }
def mpP50 : MProduct := { name := "m", platforms := [("zepto", lsP50)] }
def mpP30 : MProduct := { name := "n", platforms := [("blinkit", { price := 30 })] }
def mpAllZero : MProduct := { name := "z", platforms := [("zepto", { price := 0 })] }
def mpEmptyName : MProduct :=
  { name := "e", platforms := [("zepto", lsP50)], original_names := [("zepto", "")] }
def fZepto : MFilters := { sortBy := "price-low", platforms := ["zepto"] }
def fMax0 : MFilters := { sortBy := "price-low", platforms := [], maxPrice := some 0 }
def fMax40 : MFilters := { sortBy := "price-low", platforms := [], maxPrice := some 40 }

/-! ### Claim theorems -/

/-- **C3.** The `QuantityParser` examples of the spec: `"500 g"` parses to
`{value: 500, unit: g}`, `"1 kg"` to `{value: 1, unit: kg}`, `"banana"` to
`null`; and whenever the numeric-plus-unit regex has no match in the
normalized input, the parser returns `null`.  (The parser is a total Lean
function built from total scanners, so "no exception on malformed input" holds
by construction.) -/
theorem parseQuantity_examples_and_null :
    parseQuantity "500 g" = some ⟨500, "g"⟩ ∧
    parseQuantity "1 kg" = some ⟨1, "kg"⟩ ∧
    parseQuantity "banana" = none ∧
    ∀ s : String, findQtyMatch (lowerChars (trimChars s.data)) = none →
      parseQuantity s = none := by
  refine ⟨by decide, by decide, by decide, ?_⟩
  intro s h
  unfold parseQuantity
  rw [h]

/-- Witness for C3: the quantifier instantiated at the patternless string
`"xyz"`. -/
theorem parseQuantity_examples_and_null_witness :
    parseQuantity "xyz" = none :=
  parseQuantity_examples_and_null.2.2.2 "xyz" (by decide)

/-- The tokens the unit alternation can capture. -/
theorem unitAlt_mem_tokens {l : List Char} {u : String} (h : unitAlt l = some u) :
    u ∈ unitTokens :=
  List.mem_of_find?_eq_some h

theorem fracSplit_nonneg (r1 : List Char) (n : ℕ) : 0 ≤ (fracSplit r1 n).1 := by
  unfold fracSplit
  split
  · split_ifs with hf
    · exact Nat.cast_nonneg n
    · exact add_nonneg (Nat.cast_nonneg n)
        (div_nonneg (Nat.cast_nonneg _) (pow_pos (by norm_num : (0:ℚ) < 10) _).le)
  · exact Nat.cast_nonneg n

theorem matchQtyAt_spec {l : List Char} {v : ℚ} {u : String}
    (h : matchQtyAt l = some (v, u)) :
    0 ≤ v ∧ ∃ l', unitAlt l' = some u := by
  simp only [matchQtyAt] at h
  by_cases hd : (l.takeWhile Char.isDigit).isEmpty
  · rw [if_pos hd] at h
    exact absurd h (by simp)
  · rw [if_neg hd] at h
    rw [Option.map_eq_some'] at h
    obtain ⟨u', hu', hvu⟩ := h
    injection hvu with h1 h2
    subst h1
    subst h2
    exact ⟨fracSplit_nonneg _ _, _, hu'⟩

theorem findQtyMatch_spec :
    ∀ {l : List Char} {v : ℚ} {u : String}, findQtyMatch l = some (v, u) →
      0 ≤ v ∧ ∃ l', unitAlt l' = some u := by
  intro l
  induction l with
  | nil => intro v u h; exact absurd h (by simp [findQtyMatch])
  | cons c r ih =>
    intro v u h
    unfold findQtyMatch at h
    cases hm : matchQtyAt (c :: r) with
    | some x =>
      rw [hm] at h
      obtain ⟨x1, x2⟩ := x
      injection h with h'
      injection h' with h1 h2
      subst h1
      subst h2
      exact matchQtyAt_spec hm
    | none =>
      rw [hm] at h
      exact ih h

/-- All source tokens normalize into the four observable units. -/
theorem normalizeUnit_tokens :
    ∀ u ∈ unitTokens, normalizeUnit u ∈ (["kg", "g", "pack", "piece"] : List String) := by
  decide

/-- **C8 (amended).** `parseQuantity` returns `null` whenever the regex has no
match, and otherwise a quantity with a *nonnegative* value (zero is possible,
e.g. for `"0 kg"`) whose unit is one of `kg`, `g`, `pack`, `piece` (the
singular token `piece` is captured by the regex but not normalized to `pack`
by the synonym table, which maps only `pc`, `pcs` and `pieces`). -/
theorem parseQuantity_invariant :
    ∀ (s : String) (q : Quantity), parseQuantity s = some q →
      0 ≤ q.value ∧ q.unit ∈ (["kg", "g", "pack", "piece"] : List String) := by
  intro s q h
  unfold parseQuantity at h
  cases hf : findQtyMatch (lowerChars (trimChars s.data)) with
  | none => rw [hf] at h; exact absurd h (by simp)
  | some vu =>
    rw [hf] at h
    obtain ⟨v, u⟩ := vu
    injection h with h'
    obtain ⟨hv, l', hu⟩ := findQtyMatch_spec hf
    have hmem := unitAlt_mem_tokens hu
    rw [← h']
    exact ⟨hv, normalizeUnit_tokens u hmem⟩

/-- Witness for C8: the invariant instantiated at `"1 kg"`. -/
theorem parseQuantity_invariant_witness :
    0 ≤ (Quantity.mk 1 "kg").value ∧
      (Quantity.mk 1 "kg").unit ∈ (["kg", "g", "pack", "piece"] : List String) :=
  parseQuantity_invariant "1 kg" ⟨1, "kg"⟩ (by decide)

/-- Counterexample for C8 as stated: `"0 kg"` parses to value `0`, which is
not `> 0`, and `"2 piece"` parses to the unit `piece`, which is outside
`{kg, g, pack}`. -/
theorem parseQuantity_invariant_cex :
    parseQuantity "0 kg" = some ⟨0, "kg"⟩ ∧
    ¬ (0 < (Quantity.mk 0 "kg").value) ∧
    parseQuantity "2 piece" = some ⟨2, "piece"⟩ ∧
    (Quantity.mk 2 "piece").unit ∉ (["kg", "g", "pack"] : List String) := by
  refine ⟨by decide, by decide, by decide, by decide⟩

/-- **C2.** The `QuantityMatcher` degenerate rules: size ≤ 1 groups match;
groups where no member has a parseable quantity match; groups where some but
not all members have a parseable quantity do not match; in particular
`["1 kg", null]` is incompatible and `[null, null]` is compatible. -/
theorem hasMatchingQuantities_partial_data :
    (∀ ps : List Product, ps.length ≤ 1 → hasMatchingQuantities ps = true) ∧
    (∀ ps : List Product, (∀ p ∈ ps, parsedOf p = none) →
      hasMatchingQuantities ps = true) ∧
    (∀ ps : List Product, (∃ p ∈ ps, (parsedOf p).isSome) →
      (∃ p ∈ ps, parsedOf p = none) → hasMatchingQuantities ps = false) ∧
    hasMatchingQuantities [pOneKg, pNoQty] = false ∧
    hasMatchingQuantities [pNoQty, pNoQty] = true := by
  refine ⟨?_, ?_, ?_, by decide, by decide⟩
  · intro ps h
    unfold hasMatchingQuantities
    rw [if_pos h]
  · intro ps h
    unfold hasMatchingQuantities
    by_cases hl : ps.length ≤ 1
    · rw [if_pos hl]
    · rw [if_neg hl]
      have hnil : ps.filterMap parsedOf = [] := List.filterMap_eq_nil_iff.mpr h
      simp [hnil]
  · intro ps hsome hnone
    obtain ⟨p1, hp1, hq1⟩ := hsome
    obtain ⟨p0, hp0, hq0⟩ := hnone
    have hlt : (ps.filterMap parsedOf).length < ps.length :=
      length_filterMap_lt_of_none parsedOf ps p0 hp0 hq0
    have hpos : 0 < (ps.filterMap parsedOf).length := by
      obtain ⟨q, hq⟩ := Option.isSome_iff_exists.mp hq1
      exact List.length_pos.mpr
        (List.ne_nil_of_mem (List.mem_filterMap.mpr ⟨p1, hp1, hq⟩))
    unfold hasMatchingQuantities
    rw [if_neg (by omega), if_neg (by omega), if_pos hlt]

/-- Witness for C2: the some-but-not-all rule applied to `["1 kg", null]`. -/
theorem hasMatchingQuantities_partial_data_witness :
    hasMatchingQuantities [pOneKg, pNoQty] = false :=
  hasMatchingQuantities_partial_data.2.2.1 [pOneKg, pNoQty]
    ⟨pOneKg, List.mem_cons_self _ _, by decide⟩
    ⟨pNoQty, List.mem_cons_of_mem _ (List.mem_cons_self _ _), by decide⟩

/-! ### C7 plumbing -/

theorem parsedOf_some_quantity {p : Product} {q : Quantity}
    (h : parsedOf p = some q) :
    ∃ s, p.quantity = some s ∧ parseQuantity s = some q := by
  unfold parsedOf at h
  by_cases ht : strTruthy p.quantity
  · rw [if_pos ht] at h
    cases hq : p.quantity with
    | none => rw [hq] at ht; exact absurd ht (by simp [strTruthy])
    | some s => exact ⟨s, rfl, by rw [hq] at h; exact h⟩
  · rw [if_neg ht] at h
    exact absurd h (by simp)

theorem findQtyMatch_nil : findQtyMatch [] = none := rfl

theorem normStr_ne_empty_of_parse {s : String} {q : Quantity}
    (h : parseQuantity s = some q) : normStr s ≠ "" := by
  intro hemp
  have hl : lowerChars (trimChars s.data) = [] := by
    have := congrArg String.data hemp
    simpa [normStr] using this
  unfold parseQuantity at h
  rw [hl, findQtyMatch_nil] at h
  exact Option.noConfusion h

theorem filterMap_quantity_map (ps : List Product)
    (h : ∀ p ∈ ps, ∃ s, p.quantity = some s) :
    ps.filterMap (fun p => p.quantity.map normStr) =
      ps.map fun p => normStr (p.quantity.getD "") := by
  induction ps with
  | nil => rfl
  | cons p t ih =>
    obtain ⟨s, hs⟩ := h p (List.mem_cons_self _ _)
    rw [List.filterMap_cons, List.map_cons, hs]
    simp only [Option.map_some', Option.getD_some]
    rw [ih fun a ha => h a (List.mem_cons_of_mem _ ha)]

theorem map_some_forall_isSome {α β : Type} (f : α → Option β) :
    ∀ (l : List α) (qs : List β), l.map f = qs.map some →
      ∀ a ∈ l, (f a).isSome := by
  intro l
  induction l with
  | nil => intro qs _ a ha; simp at ha
  | cons x t ih =>
    intro qs h a ha
    cases qs with
    | nil => simp at h
    | cons q qs' =>
      simp only [List.map_cons, List.cons.injEq] at h
      rcases List.mem_cons.mp ha with rfl | hmem
      · rw [h.1]; rfl
      · exact ih qs' h.2 a hmem

/-- The kg-conversion is `none` on a `pack` unit. -/
theorem toKg_pack {q : Quantity} (h : q.unit = "pack") : toKg q = none := by
  unfold toKg
  rw [h, if_neg (by decide), if_neg (by decide)]

/-- **C7 (amended).** When every member of the group parses and at least one
member's unit is `pack`, `hasMatchingQuantities` falls back to comparing the
members' *trimmed, lower-cased* quantity strings (not the raw strings): it
returns `true` iff those normalized strings are all equal. -/
theorem pack_fallback (ps : List Product) (qs : List Quantity)
    (h1 : ps.map parsedOf = qs.map some)
    (h2 : ∃ q ∈ qs, q.unit = "pack") :
    (hasMatchingQuantities ps = true ↔
      ((ps.map fun p => normStr (p.quantity.getD "")).all
        (· = (ps.map fun p => normStr (p.quantity.getD "")).headD "")) = true) := by
  have hlen : ps.length = qs.length := by
    simpa using congrArg List.length h1
  have hsome : ∀ p ∈ ps, (parsedOf p).isSome := map_some_forall_isSome parsedOf ps qs h1
  have hquant : ∀ p ∈ ps, ∃ s, p.quantity = some s ∧ parseQuantity s = some ((parsedOf p).getD ⟨0, ""⟩) := by
    intro p hp
    obtain ⟨q, hq⟩ := Option.isSome_iff_exists.mp (hsome p hp)
    obtain ⟨s, hs, hpq⟩ := parsedOf_some_quantity hq
    refine ⟨s, hs, ?_⟩
    rw [hq]
    exact hpq
  have hquant' : ∀ p ∈ ps, ∃ s, p.quantity = some s := fun p hp =>
    (hquant p hp).imp fun s hs => hs.1
  have hss_ne : ∀ t ∈ ps.map fun p => normStr (p.quantity.getD ""), t ≠ "" := by
    intro t ht
    obtain ⟨p, hp, rfl⟩ := List.mem_map.mp ht
    obtain ⟨s, hs, hpq⟩ := hquant p hp
    rw [hs, Option.getD_some]
    exact normStr_ne_empty_of_parse hpq
  have hqs_ne : qs ≠ [] := by
    obtain ⟨q, hq, -⟩ := h2
    exact List.ne_nil_of_mem hq
  have hps_ne : ps ≠ [] := by
    intro hnil
    rw [hnil] at hlen
    exact hqs_ne (List.length_eq_zero.mp hlen.symm)
  by_cases hl : ps.length ≤ 1
  · have hL : hasMatchingQuantities ps = true := by
      unfold hasMatchingQuantities
      rw [if_pos hl]
    have hps1 : ∃ p, ps = [p] := by
      cases ps with
      | nil => exact absurd rfl hps_ne
      | cons p t =>
        refine ⟨p, ?_⟩
        cases t with
        | nil => rfl
        | cons x y => simp at hl
    obtain ⟨p, rfl⟩ := hps1
    simp [hL]
  · have hqs : ps.filterMap parsedOf = qs := filterMap_of_map_some parsedOf ps qs h1
    have hany : (qs.map toKg).any (·.isNone) = true := by
      obtain ⟨q, hq, hunit⟩ := h2
      refine List.any_eq_true.mpr ⟨toKg q, List.mem_map_of_mem _ hq, ?_⟩
      rw [toKg_pack hunit]
      rfl
    simp only [hasMatchingQuantities]
    rw [if_neg hl, hqs]
    rw [if_neg (by omega), if_neg (by omega), if_pos hany]
    rw [filterMap_quantity_map ps hquant']
    rw [List.filter_eq_self.mpr fun a ha => decide_eq_true (hss_ne a ha)]
    rw [if_neg (by rw [List.length_map]; omega)]

/-- Witness for C7: the amended fallback applied to the two-pack group
`["1 pack", "1 PACK"]`, whose normalized strings coincide. -/
theorem pack_fallback_witness :
    hasMatchingQuantities [pPackLower, pPackUpper] = true ↔
      (([pPackLower, pPackUpper].map fun p => normStr (p.quantity.getD "")).all
        (· = (([pPackLower, pPackUpper].map fun p =>
                normStr (p.quantity.getD "")).headD ""))) = true :=
  pack_fallback [pPackLower, pPackUpper] [⟨1, "pack"⟩, ⟨1, "pack"⟩] (by decide)
    ⟨⟨1, "pack"⟩, List.mem_cons_self _ _, rfl⟩

/-- Counterexample for C7 as stated: the group `["1 pack", "1 PACK"]` — every
member parses to unit `pack`, the raw quantity strings differ, yet
`hasMatchingQuantities` returns `true` (the fallback compares trimmed,
lower-cased strings, not raw strings). -/
theorem pack_fallback_cex :
    hasMatchingQuantities [pPackLower, pPackUpper] = true ∧
    pPackLower.quantity ≠ pPackUpper.quantity ∧
    parsedOf pPackLower = some ⟨1, "pack"⟩ ∧
    parsedOf pPackUpper = some ⟨1, "pack"⟩ := by
  refine ⟨by decide, by decide, by decide, by decide⟩

/-! ### C1 plumbing -/

/-- A member always passes the tolerance check against itself. -/
theorem tolOK_self (k : ℚ) : tolOK k k = true := by
  unfold tolOK
  rw [if_pos]
  rw [sub_self, abs_zero]
  norm_num

theorem any_isNone_map_some {α : Type} (ks : List α) :
    ((ks.map some).any fun o => o.isNone) = false := by
  induction ks with
  | nil => rfl
  | cons k t ih => simp

theorem headD_map_some {α : Type} (ks : List α) (d : α) :
    (((ks.map some).headD none).getD d) = ks.headD d := by
  cases ks <;> rfl

theorem all_match_map_some (ks : List ℚ) (r : ℚ) :
    ((ks.map some).all fun q =>
      match q with
      | none => false
      | some v => tolOK v r) = ks.all fun v => tolOK v r := by
  induction ks with
  | nil => rfl
  | cons k t ih => simp only [List.map_cons, List.all_cons, ih]

/-- **C1.** When every member of the group parses to a weight unit, the
quantities are converted to kilograms (`toKg`: grams divide by 1000, kilograms
stay) and `hasMatchingQuantities` returns `true` iff every converted value `v`
passes the tolerance check (`tolOK`) against the reference value taken from
the first member: `|v - r| < 0.01` or `max(v,r)/min(v,r) ≤ 2` (the ratio test
being `false` when `min (v, r) = 0`, where JS computes `Infinity` or `NaN`).
In particular `1 kg` with `900 g` is compatible and `1 kg` with `200 g` is
not. -/
theorem tolerance_matching (products : List Product) (qs : List Quantity)
    (ks : List ℚ) (h1 : products.map parsedOf = qs.map some)
    (h2 : qs.map toKg = ks.map some) :
    (hasMatchingQuantities products = true ↔
      (ks.all fun v => tolOK v (ks.headD 0)) = true) ∧
    hasMatchingQuantities [pOneKg, p900g] = true ∧
    hasMatchingQuantities [pOneKg, p200g] = false := by
  refine ⟨?_, ?_, ?_⟩
  · have hlen1 : products.length = qs.length := by
      simpa using congrArg List.length h1
    have hlen2 : qs.length = ks.length := by
      simpa using congrArg List.length h2
    by_cases hl : products.length ≤ 1
    · have hL : hasMatchingQuantities products = true := by
        unfold hasMatchingQuantities
        rw [if_pos hl]
      rw [hL]
      simp only [true_iff]
      have hkl : ks.length ≤ 1 := by omega
      have hks : ks = [] ∨ ∃ k, ks = [k] := by
        cases ks with
        | nil => exact Or.inl rfl
        | cons k t =>
          cases t with
          | nil => exact Or.inr ⟨k, rfl⟩
          | cons x y =>
            rw [List.length_cons, List.length_cons] at hkl
            omega
      rcases hks with rfl | ⟨k, rfl⟩
      · rfl
      · simpa using tolOK_self k
    · have hqs : products.filterMap parsedOf = qs :=
        filterMap_of_map_some parsedOf products qs h1
      simp only [hasMatchingQuantities]
      rw [if_neg hl, hqs, if_neg (by omega), if_neg (by omega), h2]
      rw [if_neg (by rw [any_isNone_map_some]; simp)]
      rw [headD_map_some, all_match_map_some]
  · have e1 : parsedOf pOneKg = some ⟨1, "kg"⟩ := by decide
    have e2 : parsedOf p900g = some ⟨900, "g"⟩ := by decide
    simp [hasMatchingQuantities, e1, e2, toKg, tolOK]
    norm_num [le_abs, abs_lt]
  · have e1 : parsedOf pOneKg = some ⟨1, "kg"⟩ := by decide
    have e3 : parsedOf p200g = some ⟨200, "g"⟩ := by decide
    simp [hasMatchingQuantities, e1, e3, toKg, tolOK]
    norm_num [le_abs, abs_lt]

/-! ### C4: delivery-time parsing -/

/-- Web filters with only a 15-minute delivery ceiling set. -/
def fDel15 : WebFilters :=
  { platforms := [], sortBy := "price-low", maxDeliveryTime := some 15 }

/-- A web product whose delivery estimate is the range `"10-20 mins"`. -/
def pDel1020 : Product :=
  { name := "x", platform := "zepto", price := 10, rating := 4,
    deliveryTime := some "10-20 mins" }

/-- **C4.** Delivery strings become integer minutes: an hour match yields
minutes × 60; when no hour pattern matches, a range `a-b min` yields its
*upper* bound `b` — this is the value `applyFilters` compares against
`maxDeliveryTime`, so `"10-20 mins"` is excluded by a 15-minute ceiling; a
string matching none of the three patterns yields 999.  The mobile
`fastestDelivery` sort key instead reads the *first* number of the string, so
the same `"10-20 mins"` ranks with 10 under fastest-first sorting. -/
theorem delivery_time_asymmetry :
    (∀ (s : String) (n : ℕ), findHour (lowerChars s.data) = some n →
      parseDeliveryTime s = n * 60) ∧
    (∀ (s : String) (a b : ℕ), findHour (lowerChars s.data) = none →
      findRange (lowerChars s.data) = some (a, b) → parseDeliveryTime s = b) ∧
    (∀ s : String, findHour (lowerChars s.data) = none →
      findRange (lowerChars s.data) = none → findMin (lowerChars s.data) = none →
      parseDeliveryTime s = 999) ∧
    (∀ (f : WebFilters) (p : Product), f.maxDeliveryTime = some 15 →
      p.deliveryTime = some "10-20 mins" → keepProduct f p = false) ∧
    parseDeliveryTime "10-20 mins" = 20 ∧
    listingMinutes (some "10-20 mins") = 10 := by
  refine ⟨?_, ?_, ?_, ?_, by decide, by decide⟩
  · intro s n h
    simp only [parseDeliveryTime]
    rw [h]
  · intro s a b hh hr
    simp only [parseDeliveryTime]
    rw [hh, hr]
  · intro s hh hr hm
    simp only [parseDeliveryTime]
    rw [hh, hr, hm]
  · intro f p h1 h2
    simp only [keepProduct, h1, h2]
    split_ifs with c1 c2 c3 c4 c5
    any_goals rfl
    exact absurd (by decide) c5

/-- Witness for C4: the filter clause applied to the concrete ceiling-15
filters and the `"10-20 mins"` product. -/
theorem delivery_time_asymmetry_witness :
    keepProduct fDel15 pDel1020 = false :=
  delivery_time_asymmetry.2.2.2.1 fDel15 pDel1020 rfl rfl

/-- Witness for C1: the tolerance characterization applied to the group
`["1 kg", "900 g"]` with kilogram values `[1, 0.9]`. -/
theorem tolerance_matching_witness :
    hasMatchingQuantities [pOneKg, p900g] = true ↔
      (([1, (900 : ℚ) / 1000] : List ℚ).all fun v =>
        tolOK v (([1, (900 : ℚ) / 1000] : List ℚ).headD 0)) = true :=
  (tolerance_matching [pOneKg, p900g] [⟨1, "kg"⟩, ⟨900, "g"⟩]
    [1, (900 : ℚ) / 1000] (by decide) (by simp [toKg])).1

/-! ### C5: platform narrowing -/

theorem listMin_eq_none {α : Type} [LinearOrder α] {l : List α}
    (h : listMin l = none) : l = [] := by
  cases l with
  | nil => rfl
  | cons x xs =>
    have := listMin_isSome x xs
    rw [h] at this
    exact absurd this (by simp)

/-- `namesEntry` as a truthiness-guarded read of `original_names`. -/
theorem namesEntry_eq_formula (p : MProduct) (plat : String) :
    namesEntry p plat =
      if (lookupA p.platforms plat).isSome = true ∧
         strTruthy (lookupA p.original_names plat) = true
      then lookupA p.original_names plat else none := by
  unfold namesEntry
  cases hpl : lookupA p.platforms plat <;> cases hnm : lookupA p.original_names plat
  · simp [strTruthy]
  · simp [strTruthy]
  · simp [strTruthy]
  · rename_i s
    by_cases hs : s = ""
    · subst hs; simp [strTruthy]
    · simp [strTruthy, hs]

/-- **C5 (amended).** With a non-empty platform filter, every record of the
output is a narrowed copy of an input record: its `platforms` map is exactly
the restriction of the original to the keys in `filters.platforms`; its
`original_names` map keeps an entry iff its platform is in
`filters.platforms`, the platform listing survives, *and the name string is
non-empty* (an empty-string name is falsy in JS and is dropped even though its
platform survives); and no record with an empty narrowed `platforms` map
appears in the output. -/
theorem platform_narrowing (nameLe : String → String → Bool) (l : List MProduct)
    (f : MFilters) (hp : f.platforms ≠ []) :
    ∀ q ∈ sortProducts nameLe l (some f),
      q.platforms ≠ [] ∧
      ∃ p ∈ l,
        (∀ plat, lookupA q.platforms plat =
          if plat ∈ f.platforms then lookupA p.platforms plat else none) ∧
        (∀ plat, lookupA q.original_names plat =
          if plat ∈ f.platforms ∧ (lookupA p.platforms plat).isSome = true ∧
             strTruthy (lookupA p.original_names plat) = true
          then lookupA p.original_names plat else none) := by
  intro q hq
  have hplen : f.platforms.length > 0 := List.length_pos.mpr hp
  have hq1 : q ∈ step1 (some f) l :=
    mem_of_step2 ((mem_step3 nameLe (some f) _ q).mp hq)
  obtain ⟨⟨p, hpl, rfl⟩, hlen⟩ := mem_step1_active hplen hq1
  refine ⟨List.length_pos.mp hlen, p, hpl, ?_, ?_⟩
  · intro plat
    exact lookupA_narrowPlat f.platforms p.platforms plat
  · intro plat
    show lookupA (narrowNames f.platforms p) plat = _
    rw [lookupA_narrowNames, namesEntry_eq_formula]
    by_cases hmem : plat ∈ f.platforms <;> simp [hmem]

/-- Witness for C5: the narrowing characterization applied to the one-record
list `[mpEmptyName]` under the `zepto`-only filter. -/
theorem platform_narrowing_witness :
    (narrowRec fZepto.platforms mpEmptyName).platforms ≠ [] ∧
    ∃ p ∈ [mpEmptyName],
      (∀ plat, lookupA (narrowRec fZepto.platforms mpEmptyName).platforms plat =
        if plat ∈ fZepto.platforms then lookupA p.platforms plat else none) ∧
      (∀ plat, lookupA (narrowRec fZepto.platforms mpEmptyName).original_names plat =
        if plat ∈ fZepto.platforms ∧ (lookupA p.platforms plat).isSome = true ∧
           strTruthy (lookupA p.original_names plat) = true
        then lookupA p.original_names plat else none) :=
  platform_narrowing nameLeT [mpEmptyName] fZepto (by decide)
    (narrowRec fZepto.platforms mpEmptyName) (by decide)

/-- Counterexample for C5 as stated: `mpEmptyName` carries
`original_names = {zepto: ""}` and a surviving `zepto` listing, yet the
narrowed record's `original_names` is empty — strict lock-step filtering of
`original_names` to the surviving platform keys would have kept the entry. -/
theorem platform_narrowing_cex :
    (sortProducts nameLeT [mpEmptyName] (some fZepto)).map
      (fun q => q.original_names) = [[]] ∧
    (sortProducts nameLeT [mpEmptyName] (some fZepto)).map
      (fun q => q.platforms.map Prod.fst) = [["zepto"]] ∧
    lookupA mpEmptyName.original_names "zepto" = some "" := by
  refine ⟨by decide, by decide, by decide⟩

/-! ### C6: price ceiling -/

/-- The claim-side cheapest price: minimum over *all* remaining listings'
prices (`⊤` when the record has no listing), as the spec words it. -/
def minPriceAll (p : MProduct) : WithTop ℚ :=
  match (listMin (p.platforms.map fun kv => kv.2.price) : Option ℚ) with
  | some m => (m : WithTop ℚ)
  | none => ⊤

/-- **C6 (amended).** When `maxPrice` is set to a *nonzero* `P`, every record
of the output has cheapest price (minimum over its remaining listings) `≤ P`.
(`maxPrice = 0` is falsy in JS and disables the filter entirely, see the
counterexample.) -/
theorem price_ceiling (nameLe : String → String → Bool) (l : List MProduct)
    (f : MFilters) (P : ℚ) (hP : f.maxPrice = some P) (h0 : P ≠ 0) :
    ∀ q ∈ sortProducts nameLe l (some f), minPriceAll q ≤ (P : WithTop ℚ) := by
  intro q hq
  have ht : numTruthy f.maxPrice = true := by
    rw [hP]
    simpa [numTruthy] using h0
  have hok := priceOk_of_mem_step2 ht ((mem_step3 nameLe (some f) _ q).mp hq)
  unfold priceOk at hok
  cases hm : listMin (pricesOf q) with
  | none =>
    rw [hm] at hok
    exact absurd hok (by simp)
  | some m =>
    rw [hm] at hok
    have hmP : m ≤ P := by
      have := of_decide_eq_true hok
      rwa [hP] at this
    have hmem' : m ∈ q.platforms.map fun kv => kv.2.price :=
      List.mem_of_mem_filter (listMin_mem hm)
    cases hall : listMin (q.platforms.map fun kv => kv.2.price) with
    | none =>
      rw [listMin_eq_none hall] at hmem'
      exact absurd hmem' (by simp)
    | some m' =>
      have h1 : m' ≤ m := listMin_le hall hmem'
      unfold minPriceAll
      rw [hall]
      show (m' : WithTop ℚ) ≤ (P : WithTop ℚ)
      exact_mod_cast le_trans h1 hmP

/-- Witness for C6: the ceiling theorem applied to `[mpP30]` with `P = 40`. -/
theorem price_ceiling_witness :
    minPriceAll mpP30 ≤ ((40 : ℚ) : WithTop ℚ) :=
  price_ceiling nameLeT [mpP30] fMax40 40 rfl (by norm_num) mpP30 (by decide)

/-- Counterexample for C6 as stated: with `maxPrice = 0` — a set value — the
truthiness test `if (filters?.maxPrice)` skips the whole price filter, and a
record whose cheapest price is 50 > 0 stays in the output. -/
theorem price_ceiling_cex :
    fMax0.maxPrice = some 0 ∧
    sortProducts nameLeT [mpP50] (some fMax0) = [mpP50] ∧
    ¬ minPriceAll mpP50 ≤ ((0 : ℚ) : WithTop ℚ) := by
  refine ⟨rfl, by decide, by decide⟩

/-! ### C10: records with no nonzero price -/

/-- **C10 (amended).** A record none of whose listings has a nonzero price
gets the sort key `cheapestPrice = ⊤` (JS `Infinity`); under `price-low`
sorting no such record ever precedes a record with a positive-priced listing
(whose key is finite); and when `maxPrice` is set to a *nonzero* value such a
record is removed from the output entirely (`maxPrice = 0` is falsy and
disables the removal, see the counterexample). -/
theorem zero_price_handling :
    (∀ p : MProduct,
      ((p.platforms.map fun kv => kv.2.price).all fun x => x = 0) = true →
      cheapestPrice p = ⊤) ∧
    (∀ (nameLe : String → String → Bool) (l : List MProduct) (f : MFilters),
      f.sortBy = "price-low" →
      (sortProducts nameLe l (some f)).Pairwise fun a b =>
        cheapestPrice a = ⊤ → cheapestPrice b = ⊤) ∧
    (∀ (p : MProduct) (kv : String × Listing), kv ∈ p.platforms →
      0 < kv.2.price → cheapestPrice p ≠ ⊤) ∧
    (∀ (nameLe : String → String → Bool) (l : List MProduct) (f : MFilters)
      (P : ℚ), f.maxPrice = some P → P ≠ 0 →
      ∀ q ∈ sortProducts nameLe l (some f), cheapestPrice q ≠ ⊤) := by
  refine ⟨?_, ?_, ?_, ?_⟩
  · intro p hall
    have hnil : pricesOf p = [] := by
      unfold pricesOf
      refine List.filter_eq_nil_iff.mpr ?_
      intro x hx
      have hx0 : x = 0 := of_decide_eq_true (List.all_eq_true.mp hall x hx)
      simp [hx0]
    unfold cheapestPrice
    rw [hnil]
    rfl
  · intro nameLe l f hsort
    show (step3 nameLe (some f) (step2 (some f) (step1 (some f) l))).Pairwise _
    unfold step3
    have hk : sortKeyOf (some f) = "price-low" := hsort
    rw [if_pos hk]
    haveI : IsTotal MProduct (fun a b => cheapestPrice a ≤ cheapestPrice b) :=
      ⟨fun a b => le_total _ _⟩
    haveI : IsTrans MProduct (fun a b => cheapestPrice a ≤ cheapestPrice b) :=
      ⟨fun _ _ _ h h' => le_trans h h'⟩
    exact (List.sorted_insertionSort _ _).imp fun hr ha => top_le_iff.mp (ha ▸ hr)
  · intro p kv hkv hpos
    have hmem : kv.2.price ∈ pricesOf p := by
      unfold pricesOf
      refine List.mem_filter.mpr ⟨List.mem_map_of_mem _ hkv, ?_⟩
      exact decide_eq_true (ne_of_gt hpos)
    cases hm : listMin (pricesOf p) with
    | none =>
      rw [listMin_eq_none hm] at hmem
      exact absurd hmem (by simp)
    | some m =>
      unfold cheapestPrice
      rw [hm]
      exact WithTop.coe_ne_top
  · intro nameLe l f P hP h0 q hq
    have ht : numTruthy f.maxPrice = true := by
      rw [hP]
      simpa [numTruthy] using h0
    have hok := priceOk_of_mem_step2 ht ((mem_step3 nameLe (some f) _ q).mp hq)
    unfold priceOk at hok
    cases hm : listMin (pricesOf q) with
    | none =>
      rw [hm] at hok
      exact absurd hok (by simp)
    | some m =>
      unfold cheapestPrice
      rw [hm]
      exact WithTop.coe_ne_top

/-- Witness for C10: a positive-priced listing gives a finite sort key. -/
theorem zero_price_handling_witness :
    cheapestPrice mpP50 ≠ ⊤ :=
  zero_price_handling.2.2.1 mpP50 ("zepto", lsP50) (by decide) (by decide)

/-- Counterexample for C10 as stated: with `maxPrice` *set* to `0`, the
truthiness test skips the price filter, so the all-zero-price record (key
`Infinity`) is not removed from the output. -/
theorem zero_price_handling_cex :
    cheapestPrice mpAllZero = ⊤ ∧
    fMax0.maxPrice = some 0 ∧
    sortProducts nameLeT [mpAllZero] (some fMax0) = [mpAllZero] := by
  refine ⟨by decide, rfl, by decide⟩

/-! ### C9: idempotence of the filter-and-sort pipeline -/

/-- **C9.** `sortProducts` is idempotent: running the pipeline a second time
with the same filters performs no further narrowing, no further price
filtering, and no reordering (the sort is stable and the list is already
sorted).  The collator parameter `nameLe` (JS `localeCompare`) is assumed
total and transitive, which ECMA-402 guarantees for the real collator. -/
theorem filter_sort_idempotent (nameLe : String → String → Bool)
    (htot : ∀ a b, nameLe a b = true ∨ nameLe b a = true)
    (htrans : ∀ a b c, nameLe a b = true → nameLe b c = true → nameLe a c = true)
    (l : List MProduct) (f : Option MFilters) :
    sortProducts nameLe (sortProducts nameLe l f) f = sortProducts nameLe l f := by
  have h1 : step1 f (sortProducts nameLe l f) = sortProducts nameLe l f := by
    cases f with
    | none => rfl
    | some f' =>
      by_cases hp : f'.platforms.length > 0
      · apply step1_eq_self
        intro x hx
        have hx1 : x ∈ step1 (some f') l :=
          mem_of_step2 ((mem_step3 nameLe (some f') _ x).mp hx)
        obtain ⟨⟨p, hpl, rfl⟩, hlen⟩ := mem_step1_active hp hx1
        exact ⟨narrowRec_idem _ _, hlen⟩
      · simp only [step1]
        rw [if_neg hp]
  have h2 : step2 f (sortProducts nameLe l f) = sortProducts nameLe l f := by
    apply step2_eq_self
    intro f' heq ht x hx
    subst heq
    exact priceOk_of_mem_step2 ht ((mem_step3 nameLe (some f') _ x).mp hx)
  show step3 nameLe f (step2 f (step1 f (sortProducts nameLe l f))) =
    sortProducts nameLe l f
  rw [h1, h2]
  exact step3_idem nameLe htot htrans f _

/-- Witness for C9: idempotence at the constant-true collator (total and
transitive), a concrete list and `filters = none`. -/
theorem filter_sort_idempotent_witness :
    sortProducts nameLeT (sortProducts nameLeT [mpP50, mpP30] none) none =
      sortProducts nameLeT [mpP50, mpP30] none :=
  filter_sort_idempotent nameLeT (fun _ _ => Or.inl rfl)
    (fun _ _ _ _ h => h) [mpP50, mpP30] none

end PriceComp

